import Mathlib

/-!
Verification development for the `lernfabrik-simulation` repository.

The discrete-event simulation engine (`learning_factory/`) is shallowly
embedded below.  Stateful simulation loops become pure step functions on
explicit state (random draws become parameters); SimPy stores become
`List` queues; Python floats become `ℚ`; the metrics dictionary becomes
explicit record fields.  Each definition is translated from the source
file named in its doc comment.
-/

namespace LearningFactory

/-! ### In-process gauge (`stations.py`: `_begin_processing` / `_end_processing`)

The per-station-identity entry of `metrics["inproc_now"]` / `"inproc_peak"`
is an integer pair, initialised to `(0, 0)` by `_ensure_inproc_metrics`.
We model one station identity's pair. -/

structure Gauge where
  now : ℤ
  peak : ℤ
  deriving Repr, DecidableEq

/-- `_begin_processing` (stations.py lines 22-26): increment `inproc_now`
and raise `inproc_peak` to it when it newly exceeds the peak. -/
def begin_processing (g : Gauge) : Gauge :=
  let n := g.now + 1
  if n > g.peak then { now := n, peak := n } else { now := n, peak := g.peak }

/-- `_end_processing` (stations.py lines 28-30): decrement `inproc_now`,
clamped at zero via `max(0, ... - 1)`. -/
def end_processing (g : Gauge) : Gauge :=
  { g with now := max 0 (g.now - 1) }

/-- A call into the gauge: a `_begin_processing` or `_end_processing` call. -/
inductive GaugeOp where
  | inc : GaugeOp
  | dec : GaugeOp
  deriving Repr, DecidableEq

def applyGaugeOp (g : Gauge) : GaugeOp → Gauge
  | GaugeOp.inc => begin_processing g
  | GaugeOp.dec => end_processing g

/-- Replay a call sequence from the initial `(0, 0)` state set up by
`_ensure_inproc_metrics`. -/
def runGauge (ops : List GaugeOp) : Gauge :=
  ops.foldl applyGaugeOp { now := 0, peak := 0 }

/-- The successive values of `inproc_now` after each call of the sequence,
starting from a given state. -/
def nowTraceFrom (g : Gauge) : List GaugeOp → List ℤ
  | [] => []
  | op :: rest => (applyGaugeOp g op).now :: nowTraceFrom (applyGaugeOp g op) rest

/-- All values `inproc_now` has attained during the run, the initial 0
included. -/
def attainedNows (ops : List GaugeOp) : List ℤ :=
  0 :: nowTraceFrom { now := 0, peak := 0 } ops

/-! ### Tokens and the primary-arrival try-put (`flows.py`: `new_orders_source`)

A token of `new_orders_source` is `{"id": ..., "type": "new", "t_created": env.now}`;
it is never mutated afterwards, so its identity is all that matters here. -/

structure Token where
  id : ℕ
  t_created : ℚ
  deriving Repr, DecidableEq

/-- The state `new_orders_source` touches on one arrival event: the
`neu_lager` store (a SimPy `Store` is a FIFO list with a capacity) and the
two counters of `metrics`. -/
structure ArrivalState where
  neu_lager : List Token
  capacity : ℕ
  arrivals_new : ℕ
  lost_new_due_to_neu_lager_full : ℕ
  deriving Repr, DecidableEq

/-- `new_orders_source`, flows.py lines 39-45: the non-suspending try-put.
`if len(neu.items) < neu.capacity:` enqueue the token and count the
arrival, `else:` count the loss and leave the store untouched.  The check
guarantees the `put` completes immediately, so this is a total function of
the state: the source never suspends and never retries. -/
def try_put_new (st : ArrivalState) (tok : Token) : ArrivalState :=
  if st.neu_lager.length < st.capacity then
    { st with neu_lager := st.neu_lager ++ [tok], arrivals_new := st.arrivals_new + 1 }
  else
    { st with lost_new_due_to_neu_lager_full := st.lost_new_due_to_neu_lager_full + 1 }

/-! ### Returns source batches (`flows.py`: `returns_source`) -/

/-- Python's `int()` on a real value truncates toward zero. -/
def pyInt (x : ℚ) : ℤ :=
  if 0 ≤ x then ⌊x⌋ else ⌈x⌉

/-- `returns_source`, flows.py line 69:
`batch_size = max(1, int(random.gauss(batch_mean, 1)))`, with the normal
draw passed in as the parameter `x`. -/
def batch_size (x : ℚ) : ℤ :=
  max 1 (pyInt x)

/-- Modelled from the spec for comparison with `batch_size` (the source of
the claim's words): "each batch size is `max(1, round(Normal(batch_mean, 1)))`",
with `round` the nearest-integer rounding the spec names. -/
def batch_size_spec (x : ℚ) : ℤ :=
  max 1 (round x)

/-- `returns_source`, flows.py lines 71-75: every unit of the batch is put
into `warenannahme` in sequence and `arrivals_returns` is incremented once
per unit; tokens are the strings `RET-...` numbered from `i + 1`.
Result: (new buffer contents, new `arrivals_returns`, new `i`). -/
def put_batch (warenannahme : List ℕ) (arrivals_returns : ℕ) (i : ℕ) (x : ℚ) :
    List ℕ × ℕ × ℕ :=
  let n := (batch_size x).toNat
  (warenannahme ++ (List.range n).map (fun k => i + k + 1), arrivals_returns + n, i + n)

/-! ### Reliability model (`stations.py`: `_draw_mttr_min` and the
between-jobs reliability check shared by both station runners) -/

/-- The reliability specification `_reliab_for` assembles (defaults merged
with the per-station override, with the fallbacks of stations.py 38-41
already applied). -/
structure RelSpec where
  mtbf_min : ℚ
  mttr_min : ℚ
  mttr_dist : String
  mttr_sigma_min : ℚ
  deriving Repr, DecidableEq

/-- `_draw_mttr_min`, stations.py lines 44-51.  The normal branch computes
`max(0.0, random.gauss(mu, sigma))`; the Gaussian draw is passed in as
`gaussDraw`.  The fixed branch returns `float(spec["mttr_min"])` as is. -/
def draw_mttr_min (spec : RelSpec) (gaussDraw : ℚ) : ℚ :=
  if spec.mttr_dist = "normal" then max 0 gaussDraw else spec.mttr_min

/-- The post-job reliability check of both station runners, stations.py
lines 109-117: decrement the failure countdown by the job time; when it
reaches zero or below, draw a repair and apply it only `if repair > 0`
(sleep for it and add it to downtime), then use the redrawn countdown
`nextTtf`.  Returns (new countdown, new downtime, the timeout slept). -/
def reliability_check (spec : RelSpec) (gaussDraw nextTtf ttf ct_min downtime : ℚ) :
    ℚ × ℚ × ℚ :=
  let t := ttf - ct_min
  if t ≤ 0 then
    let repair := draw_mttr_min spec gaussDraw
    if repair > 0 then (nextTtf, downtime + repair, repair)
    else (nextTtf, downtime, 0)
  else (t, downtime, 0)

/-! ### Configuration loading (`config.py`: `load_config`)

A parsed YAML document is modelled as a finite nesting of numbers, strings
and string-keyed tables; the configuration is the top-level table. -/

inductive CVal where
  | num (q : ℚ)
  | str (s : String)
  | table (entries : List (String × CVal))

/-- Top-level key lookup on a parsed table (`k in cfg` / `cfg[k]`). -/
def lookupKey (cfg : List (String × CVal)) (k : String) : Option CVal :=
  (cfg.find? (fun p => p.1 == k)).map (fun p => p.2)

/-- `config.py` line 4: `REQUIRED_KEYS`. -/
def required_keys : List String :=
  ["meta", "resources", "buffers", "forward_flow", "reverse_flow", "rules"]

/-- `load_config`, config.py lines 6-12, after the YAML parse: collect the
required top-level keys not in the document; raise `ValueError` when any is
missing, otherwise return the document unchanged (no further validation of
any field). -/
def load_config (cfg : List (String × CVal)) : Except String (List (String × CVal)) :=
  let missing := required_keys.filter (fun k => (lookupKey cfg k).isNone)
  if missing.isEmpty then Except.ok cfg
  else Except.error ("Config missing keys: " ++ String.intercalate ", " missing)

def isError {α : Type} : Except String α → Bool
  | Except.error _ => true
  | Except.ok _ => false

/-- The numeric field `run_simulation` reads first,
`float(cfg["meta"]["horizon_min"])` (simulate.py line 119). -/
def horizon_field (cfg : List (String × CVal)) : Option CVal :=
  match lookupKey cfg "meta" with
  | some (CVal.table m) => lookupKey m "horizon_min"
  | _ => none

def isNumericVal : Option CVal → Bool
  | some (CVal.num _) => true
  | _ => false

/-- A configuration with every required top-level section present but a
malformed (non-numeric) `meta.horizon_min`. -/
def cfgBadNumeric : List (String × CVal) :=
  [("meta", CVal.table [("horizon_min", CVal.str "sixty")]),
   ("resources", CVal.table []),
   ("buffers", CVal.table []),
   ("forward_flow", CVal.table []),
   ("reverse_flow", CVal.table []),
   ("rules", CVal.table [])]

/-! ### Primary-source arrival cutoff (`flows.py`: `new_orders_source`,
`simulate.py`: `total_route_time_min` and the `stop_new_at` knob) -/

/-- One entry of `cfg["forward_flow"]`. The `type` field defaults to
`"process"` when absent (`s.get("type", "process")`); the model stores the
defaulted value. -/
structure FlowStep where
  id : String
  type : String
  cycle_time_s : ℚ
  machines : ℕ
  workers_required : ℕ
  deriving Repr, DecidableEq

/-- `total_route_time_min`, simulate.py lines 21-27: the summed
`cycle_time_s` of every process-type forward step, converted to minutes. -/
def total_route_time_min (flow : List FlowStep) : ℚ :=
  ((flow.filter (fun s => s.type == "process")).map (fun s => s.cycle_time_s)).sum / 60

/-- simulate.py line 123: `stop_new_at = max(0.0, horizon - route_min)`. -/
def stop_new_at (horizon : ℚ) (flow : List FlowStep) : ℚ :=
  max 0 (horizon - total_route_time_min flow)

/-- `new_orders_source`, flows.py lines 18-31, as a pure run over the
pre-drawn interarrival times `ds`: from virtual time `now`, stop when the
cutoff is reached (`env.now >= stop_at`); when the next arrival would cross
the cutoff (`env.now + inter > stop_at`), sleep `max(0, stop_at - env.now)`
and stop without a token; otherwise sleep the interarrival and create a
token stamped with the current time.  Returns (creation times, final
virtual time). -/
def new_orders_run (stop_at : ℚ) (now : ℚ) : List ℚ → List ℚ × ℚ
  | [] => ([], now)
  | d :: rest =>
      if stop_at ≤ now then ([], now)
      else if stop_at < now + d then ([], now + max 0 (stop_at - now))
      else
        let out := new_orders_run stop_at (now + d) rest
        ((now + d) :: out.1, out.2)

/-! ### Station output bookkeeping (`stations.py`: `run_serial_station`,
`simulate.py`: the per-machine spawning loop)

`run_simulation` (simulate.py 177-191) spawns one `run_serial_station`
process per configured machine, all with the same `base_id` (the `#m`
suffix is stripped at stations.py line 74).  Each process keeps its own
local `produced` counter and, after each publish, executes
`metrics.setdefault("station_output", {})[base_id] = int(produced)`
(stations.py line 120): the shared map entry is overwritten with the
writer's local count.  A run is the sequence of publishes under one station
identity, each event naming the machine instance that published. -/

structure PubState where
  locals : ℕ → ℕ
  station_output : Option ℕ

/-- One Publishing step by machine instance `i`: bump its local `produced`
and store that local value into the shared `station_output` entry. -/
def publish_step (s : PubState) (i : ℕ) : PubState :=
  let n := s.locals i + 1
  { locals := fun j => if j = i then n else s.locals j, station_output := some n }

/-- Replay a publish trace from run start (all local counters 0, no
`station_output` entry yet). -/
def run_publishes (evs : List ℕ) : PubState :=
  evs.foldl publish_step ⟨fun _ => 0, none⟩

/-! ### Priority station input selection (`stations.py`: `run_priority_station`)

`run_simulation` (simulate.py 160-175) runs a single `run_priority_station`
for `pressen_1` with input stores `[lager1, lager2, neu_lager]` in priority
order; `reman_sources = set(input_stores_in_priority[:2])` tags the first
two (the distinct reman-fed buffers), so `src in reman_sources` holds
exactly when the selected index is 0 or 1. -/

/-- The scan of stations.py lines 151-156: the index of the first input
store with `len(st.items) > 0`. -/
def find_nonempty {α : Type} : List (List α) → Option ℕ
  | [] => none
  | b :: rest => if b.length > 0 then some 0 else (find_nonempty rest).map (· + 1)

/-- Remove the head token of the i-th buffer (`src.get()` on a SimPy store
pops FIFO head). -/
def removeHead {α : Type} : List (List α) → ℕ → List (List α)
  | [], _ => []
  | b :: rest, 0 => b.tail :: rest
  | b :: rest, n + 1 => b :: removeHead rest n

/-- The state the pressen_1 priority station's idle phase touches. -/
structure PrioState (α : Type) where
  bufs : List (List α)
  now : ℚ
  pressen1_from_reman : ℕ
  pressen1_from_new : ℕ

/-- One pass of the idle loop of `run_priority_station` (stations.py
149-160) together with the pressen_1 mix bookkeeping (lines 188-193): scan
for the first non-empty input store; if all are empty, sleep the fixed
polling interval `poll_dt_min` and take nothing, otherwise take that
store's head token and increment `pressen1_from_reman` when it is one of
the two highest-priority stores, `pressen1_from_new` otherwise. -/
def prio_idle_step {α : Type} (poll_dt_min : ℚ) (st : PrioState α) : PrioState α :=
  match find_nonempty st.bufs with
  | none => { st with now := st.now + poll_dt_min }
  | some i =>
      if i < 2 then
        { st with bufs := removeHead st.bufs i,
                  pressen1_from_reman := st.pressen1_from_reman + 1 }
      else
        { st with bufs := removeHead st.bufs i,
                  pressen1_from_new := st.pressen1_from_new + 1 }

/-! ### Worker pool (`simulate.py` lines 77-78, `stations.py` lines 83-97)

`run_simulation` creates `simpy.Container(env, init=workers_total,
capacity=workers_total)` only `if workers_total > 0`, else `workers_pool`
is `None`.  Each station instance runs `yield workers_pool.get(workers_required)`
before processing and `yield workers_pool.put(workers_required)` after —
but only `if workers_pool is not None and workers_required > 0`; with no
pool or a zero requirement the reserve/release is skipped entirely.  A
Container `get(n)` only resumes when `n ≤ level` and then atomically
subtracts; between the `get` resuming and the processing timeout there is
no suspension point, so reserving and entering Processing form one step. -/

structure WStation where
  req : ℕ
  holding : ℕ
  busy : Bool
  deriving Repr, DecidableEq

structure WSys where
  workers_total : ℕ
  avail : ℕ
  stations : List WStation
  deriving Repr, DecidableEq

/-- How many units a station instance actually reserves before a job:
`workers_required` when the pool exists (`workers_total > 0`) and the
requirement is positive, nothing otherwise (stations.py 84-85). -/
def reserveNeed (total req : ℕ) : ℕ :=
  if 0 < total ∧ 0 < req then req else 0

/-- Run start: the Container holds all `workers_total` units; every station
instance is idle, holding nothing. -/
def initSys (total : ℕ) (reqs : List ℕ) : WSys :=
  ⟨total, total, reqs.map (fun r => ⟨r, 0, false⟩)⟩

/-- The worker-pool-relevant transitions of a run: station `i` reserves
and starts a job (its `get(workers_required)` having resumed, which
requires the units to be available), finishes the processing timeout, or
puts back what it reserved (`put(workers_required)`, stations.py 96-97). -/
inductive WStep : WSys → WSys → Prop
  | start (s : WSys) (i : ℕ) (st : WStation)
      (hget : s.stations[i]? = some st)
      (hidle : st.busy = false) (hhold : st.holding = 0)
      (hav : reserveNeed s.workers_total st.req ≤ s.avail) :
      WStep s ⟨s.workers_total, s.avail - reserveNeed s.workers_total st.req,
               s.stations.set i ⟨st.req, reserveNeed s.workers_total st.req, true⟩⟩
  | finish (s : WSys) (i : ℕ) (st : WStation)
      (hget : s.stations[i]? = some st) (hbusy : st.busy = true) :
      WStep s ⟨s.workers_total, s.avail, s.stations.set i ⟨st.req, st.holding, false⟩⟩
  | release (s : WSys) (i : ℕ) (st : WStation)
      (hget : s.stations[i]? = some st) (hidle : st.busy = false) :
      WStep s ⟨s.workers_total, s.avail + st.holding, s.stations.set i ⟨st.req, 0, false⟩⟩

/-- The total number of worker units currently reserved by station
instances. -/
def heldSum (s : WSys) : ℕ :=
  (s.stations.map (fun st => st.holding)).sum

/-! ### Utilization KPI (`simulate.py` lines 204-212)

`denom_time = horizon + warmdown`; each row of `kpi_stations` is
`{"Station": st, "Utilization %": round(100.0 * busy / denom_time, 2)}`.
Python's 2-decimal `round` is embedded as nearest-hundredth rounding (the
tie-breaking rule differs only at exact half-cent ties, which does not
affect any bound proved here).

A station instance's `busy` counter is the sum of the elapsed times of its
completed Processing states (stations.py lines 89-92): jobs run one after
the other on the instance, each starting no earlier than the previous one
ended, and only jobs completed by the end of the run are accumulated. -/

/-- `round(x, 2)`: round to the nearest hundredth. -/
def round2 (x : ℚ) : ℚ :=
  (round (100 * x) : ℚ) / 100

/-- The `kpi_stations` utilization table built from
`metrics["station_busy_time"]` (simulate.py 208-211). -/
def utilization_rows (denom_time : ℚ) (busyMap : List (String × ℚ)) :
    List (String × ℚ) :=
  busyMap.map (fun p => (p.1, round2 (100 * p.2 / denom_time)))

/-- One completed Processing occupancy of a station instance: its start
time and its (non-negative) duration. -/
structure Job where
  start : ℚ
  dur : ℚ
  deriving Repr, DecidableEq

/-- The jobs of one station instance run in sequence: from lower time
bound `t`, each job starts no earlier than `t` and the rest run after it
ends.  Durations are non-negative (a SimPy timeout of `ct_min ≥ 0`). -/
def Chained : ℚ → List Job → Prop
  | _, [] => True
  | t, j :: rest => t ≤ j.start ∧ 0 ≤ j.dur ∧ Chained (j.start + j.dur) rest

/-- The completion time of the last job, from lower time bound `t`. -/
def endTime : ℚ → List Job → ℚ
  | t, [] => t
  | _, j :: rest => endTime (j.start + j.dur) rest

/-- The accumulated `busy` counter: the summed durations. -/
def busyOf (jobs : List Job) : ℚ :=
  (jobs.map (fun j => j.dur)).sum

end LearningFactory

namespace LearningFactory

theorem gauge_now_nonneg_le_peak (g : Gauge) (op : GaugeOp)
    (h0 : 0 ≤ g.now) (h1 : g.now ≤ g.peak) :
    0 ≤ (applyGaugeOp g op).now ∧ (applyGaugeOp g op).now ≤ (applyGaugeOp g op).peak := by
  cases op with
  | inc =>
      simp only [applyGaugeOp, begin_processing]
      split <;> constructor <;> simp <;> omega
  | dec =>
      simp only [applyGaugeOp, end_processing]
      constructor
      · exact le_max_left 0 (g.now - 1)
      · have : max 0 (g.now - 1) ≤ g.now := by omega
        omega

theorem gauge_peak_eq_max_attained (g : Gauge) (ops : List GaugeOp)
    (h0 : 0 ≤ g.now) (h1 : g.now ≤ g.peak) :
    (ops.foldl applyGaugeOp g).peak = (nowTraceFrom g ops).foldl max g.peak := by
  induction ops generalizing g with
  | nil => simp [nowTraceFrom]
  | cons op rest ih =>
      have hstep := gauge_now_nonneg_le_peak g op h0 h1
      have hpk : (applyGaugeOp g op).peak = max g.peak (applyGaugeOp g op).now := by
        cases op with
        | inc =>
            simp only [applyGaugeOp, begin_processing]
            split <;> simp <;> omega
        | dec =>
            simp only [applyGaugeOp, end_processing]
            simp
            omega
      simp only [List.foldl_cons, nowTraceFrom]
      rw [ih _ hstep.1 hstep.2, hpk]

theorem gauge_run_invariant (g : Gauge) (ops : List GaugeOp)
    (h0 : 0 ≤ g.now) (h1 : g.now ≤ g.peak) :
    0 ≤ (ops.foldl applyGaugeOp g).now ∧
      (ops.foldl applyGaugeOp g).now ≤ (ops.foldl applyGaugeOp g).peak := by
  induction ops generalizing g with
  | nil => exact ⟨h0, h1⟩
  | cons op rest ih =>
      have hstep := gauge_now_nonneg_le_peak g op h0 h1
      simpa using ih (applyGaugeOp g op) hstep.1 hstep.2

/-- C10.  For every station identity and every sequence of
`_begin_processing` / `_end_processing` calls, in any order (more ends than
begins included): the live gauge `inproc_now` never becomes negative, a
decrement of a zero gauge leaves it at zero, and `inproc_peak` equals the
maximum value `inproc_now` has attained so far, so
`inproc_peak ≥ inproc_now ≥ 0` after every operation. -/
theorem inproc_gauge_invariant (ops : List GaugeOp) (p : ℤ) :
    0 ≤ (runGauge ops).now ∧
      (runGauge ops).now ≤ (runGauge ops).peak ∧
      (runGauge ops).peak = (attainedNows ops).foldl max 0 ∧
      (end_processing { now := 0, peak := p }).now = 0 := by
  have hinv := gauge_run_invariant { now := 0, peak := 0 } ops (le_refl 0) (le_refl 0)
  refine ⟨hinv.1, hinv.2, ?_, ?_⟩
  · have := gauge_peak_eq_max_attained { now := 0, peak := 0 } ops (le_refl 0) (le_refl 0)
    simpa [runGauge, attainedNows] using this
  · simp [end_processing]

/-- C4.  Every primary arrival event either enqueues (buffer below
capacity: token appended, `arrivals_new` up by one, loss counter and the
rest unchanged) or discards (buffer at capacity: buffer contents unchanged,
`lost_new_due_to_neu_lager_full` up by one, `arrivals_new` unchanged); in
both cases exactly one of the two counters moves, and a buffer within
capacity stays within capacity.  `try_put_new` is a total function of the
state, so the source never suspends on the intake buffer and a dropped
token is never retried. -/
theorem new_arrival_try_put_cases (st : ArrivalState) (tok : Token) :
    (st.neu_lager.length < st.capacity →
      (try_put_new st tok).neu_lager = st.neu_lager ++ [tok] ∧
      (try_put_new st tok).arrivals_new = st.arrivals_new + 1 ∧
      (try_put_new st tok).lost_new_due_to_neu_lager_full =
        st.lost_new_due_to_neu_lager_full) ∧
    (¬ st.neu_lager.length < st.capacity →
      (try_put_new st tok).neu_lager = st.neu_lager ∧
      (try_put_new st tok).lost_new_due_to_neu_lager_full =
        st.lost_new_due_to_neu_lager_full + 1 ∧
      (try_put_new st tok).arrivals_new = st.arrivals_new) ∧
    (try_put_new st tok).arrivals_new + (try_put_new st tok).lost_new_due_to_neu_lager_full
      = st.arrivals_new + st.lost_new_due_to_neu_lager_full + 1 ∧
    (st.neu_lager.length ≤ st.capacity →
      (try_put_new st tok).neu_lager.length ≤ st.capacity) := by
  by_cases h : st.neu_lager.length < st.capacity <;>
    simp [try_put_new, h] <;> omega

/-- C5, counterexample.  For the drawn value X = 2.7 the code's batch size
is `max(1, int(2.7)) = 2` (truncation toward zero), while the claim's
`max(1, round(2.7))` is 3: the claim's formula disagrees with the code. -/
theorem batch_size_not_round : batch_size (27 / 10) = 2 ∧ batch_size_spec (27 / 10) = 3 ∧
    batch_size (27 / 10) ≠ batch_size_spec (27 / 10) := by
  have hfl : (⌊(27 : ℚ) / 10⌋ : ℤ) = 2 := by
    rw [Int.floor_eq_iff] <;> norm_num
  have hrd : round ((27 : ℚ) / 10) = 3 := by
    rw [round_eq, Int.floor_eq_iff] <;> norm_num
  have h27 : (0 : ℚ) ≤ 27 / 10 := by norm_num
  refine ⟨?_, ?_, ?_⟩ <;> simp [batch_size, batch_size_spec, pyInt, hfl, hrd, h27]

/-- C5, amended.  For every batch event of the returns source the number of
units put into the returns-intake buffer equals `max(1, int(X))` where X is
the drawn Normal value and `int` truncates toward zero (so for X ≥ 1 the
batch size is the truncation of X, not the nearest integer), and
`arrivals_returns` increases by exactly that batch size. -/
theorem returns_batch_size_trunc (buf : List ℕ) (arr i : ℕ) (x : ℚ)
    (h : 1 ≤ pyInt x) :
    batch_size x = pyInt x ∧
    1 ≤ batch_size x ∧
    (put_batch buf arr i x).2.1 = arr + (batch_size x).toNat ∧
    (put_batch buf arr i x).1.length = buf.length + (batch_size x).toNat := by
  refine ⟨?_, ?_, ?_, ?_⟩
  · simp [batch_size]; omega
  · simp [batch_size]
  · simp [put_batch]
  · simp [put_batch]

theorem returns_batch_size_trunc_witness :
    batch_size (27 / 10) = pyInt (27 / 10) ∧
    1 ≤ batch_size (27 / 10) ∧
    (put_batch [7] 5 3 (27 / 10)).2.1 = 5 + (batch_size (27 / 10)).toNat ∧
    (put_batch [7] 5 3 (27 / 10)).1.length = [7].length + (batch_size (27 / 10)).toNat := by
  have hfl : (⌊(27 : ℚ) / 10⌋ : ℤ) = 2 := by
    rw [Int.floor_eq_iff] <;> norm_num
  exact returns_batch_size_trunc [7] 5 3 (27 / 10)
    (by simp [pyInt, hfl]; norm_num)

/-- A reliability specification with the fixed distribution and a negative
`mttr_min`: fields are mtbf_min, mttr_min, mttr_dist, mttr_sigma_min. -/
def fixedNegSpec : RelSpec :=
  ⟨100, -5, "fixed", 0⟩

/-- C8, counterexample.  For `mttr_dist = "fixed"` with `mttr_min = -5` the
drawn repair duration `_draw_mttr_min` returns is -5 < 0: the fixed branch
returns `mttr_min` without the clamp, so the claim's "for any real
mttr_min the draw is ≥ 0" fails. -/
theorem draw_mttr_fixed_negative :
    draw_mttr_min fixedNegSpec 0 = -5 ∧ ¬ (0 : ℚ) ≤ draw_mttr_min fixedNegSpec 0 := by
  constructor <;> simp [draw_mttr_min, fixedNegSpec]

/-- C8, amended.  Only the normal branch of `_draw_mttr_min` is truncated
at zero: for `mttr_dist = "normal"` the drawn repair duration is ≥ 0 for
every Gaussian draw, while the fixed branch returns `mttr_min` unclamped
(possibly negative).  A non-positive draw is nonetheless never propagated:
the station applies a repair only when it is strictly positive, so
cumulative downtime never decreases, the slept timeout is ≥ 0, and the
downtime increment equals the slept timeout exactly. -/
theorem draw_mttr_clamp_and_guard (spec : RelSpec) (g nextTtf ttf ct dt : ℚ) :
    (spec.mttr_dist = "normal" → 0 ≤ draw_mttr_min spec g) ∧
    (spec.mttr_dist ≠ "normal" → draw_mttr_min spec g = spec.mttr_min) ∧
    dt ≤ (reliability_check spec g nextTtf ttf ct dt).2.1 ∧
    0 ≤ (reliability_check spec g nextTtf ttf ct dt).2.2 ∧
    (reliability_check spec g nextTtf ttf ct dt).2.1 =
      dt + (reliability_check spec g nextTtf ttf ct dt).2.2 := by
  refine ⟨fun h => ?_, fun h => ?_, ?_, ?_, ?_⟩
  · simp [draw_mttr_min, h]
  · simp [draw_mttr_min, h]
  all_goals
    simp only [reliability_check]
    split
    · split <;> simp <;> linarith
    · simp

/-- C9, counterexample.  A configuration with all six required sections
present but a non-numeric `meta.horizon_min` is defective in the claim's
sense (malformed required numeric field), yet `load_config` accepts it
without raising: the claim's "raises if and only if the configuration is
defective" fails in the malformed-numeric direction, and the engine starts
on the partially-validated parameters. -/
theorem load_config_accepts_malformed_numeric :
    load_config cfgBadNumeric = Except.ok cfgBadNumeric ∧
    isNumericVal (horizon_field cfgBadNumeric) = false := by
  constructor <;> rfl

/-- C9, amended.  `load_config` raises a described fatal error if and only
if a required top-level section (`meta`, `resources`, `buffers`,
`forward_flow`, `reverse_flow`, `rules`) is missing; it performs no
validation of numeric fields, so a configuration whose sections are all
present is always accepted, malformed numeric fields included (those
surface only later, inside the engine). -/
theorem load_config_error_iff_missing_section (cfg : List (String × CVal)) :
    (isError (load_config cfg) = true ↔
      ∃ k ∈ required_keys, (lookupKey cfg k).isNone) ∧
    (¬ isError (load_config cfg) = true → load_config cfg = Except.ok cfg) := by
  cases hb : (required_keys.filter (fun k => (lookupKey cfg k).isNone)).isEmpty with
  | true =>
      have hforall : ∀ k ∈ required_keys, ¬ (lookupKey cfg k).isNone = true := by
        simpa [List.isEmpty_iff, List.filter_eq_nil_iff] using hb
      have hok : load_config cfg = Except.ok cfg := by
        simp [load_config, hb]
      refine ⟨?_, fun _ => hok⟩
      rw [hok]
      simp only [isError, Bool.false_eq_true, false_iff]
      rintro ⟨k, hk, hnone⟩
      exact hforall k hk hnone
  | false =>
      have hex : ∃ k ∈ required_keys, (lookupKey cfg k).isNone = true := by
        have h := hb
        rw [List.isEmpty_eq_false_iff_exists_mem] at h
        obtain ⟨k, hk⟩ := h
        rw [List.mem_filter] at hk
        exact ⟨k, hk.1, hk.2⟩
      have herr : isError (load_config cfg) = true := by
        simp [load_config, hb, isError]
      refine ⟨?_, fun h => absurd herr h⟩
      rw [herr]
      simp only [true_iff]
      exact hex

theorem new_orders_times_le_cutoff (stop_at : ℚ) (ds : List ℚ) :
    ∀ now, ∀ t ∈ (new_orders_run stop_at now ds).1, t ≤ stop_at := by
  induction ds with
  | nil => intro now t ht; simp [new_orders_run] at ht
  | cons d rest ih =>
      intro now t ht
      simp only [new_orders_run] at ht
      by_cases h1 : stop_at ≤ now
      · simp [h1] at ht
      · by_cases h2 : stop_at < now + d
        · simp [h1, h2] at ht
        · simp only [h1, h2, if_false, if_neg, List.mem_cons] at ht
          rcases ht with rfl | ht
          · linarith
          · exact ih (now + d) t ht

/-- C3.  The primary (new-build) source never creates a token at a
simulated time strictly after `max(0, horizon - total_route_time)` with
`total_route_time` the summed forward process-station cycle times in
minutes, and whenever the drawn interarrival would carry it past that
cutoff, the source advances virtual time exactly to the cutoff and stops,
emitting no token for that draw. -/
theorem new_source_respects_cutoff (horizon : ℚ) (flow : List FlowStep)
    (ds : List ℚ) (now d : ℚ) (rest : List ℚ)
    (h1 : now < stop_new_at horizon flow)
    (h2 : stop_new_at horizon flow < now + d) :
    (∀ t ∈ (new_orders_run (stop_new_at horizon flow) 0 ds).1,
        t ≤ stop_new_at horizon flow) ∧
    new_orders_run (stop_new_at horizon flow) now (d :: rest) =
      ([], stop_new_at horizon flow) := by
  constructor
  · exact new_orders_times_le_cutoff (stop_new_at horizon flow) ds 0
  · have hn : ¬ stop_new_at horizon flow ≤ now := not_le.mpr h1
    simp only [new_orders_run, hn, if_false, h2, if_true, if_neg, Prod.mk.injEq]
    constructor
    · trivial
    · have : max 0 (stop_new_at horizon flow - now) = stop_new_at horizon flow - now := by
        apply max_eq_right
        linarith
      rw [this]
      ring

def routeStepA : FlowStep :=
  ⟨"pressen_1", "process", 600, 1, 0⟩

theorem new_source_respects_cutoff_witness :
    (∀ t ∈ (new_orders_run (stop_new_at 100 [routeStepA]) 0 [50, 60]).1,
        t ≤ stop_new_at 100 [routeStepA]) ∧
    new_orders_run (stop_new_at 100 [routeStepA]) 50 [60] =
      ([], stop_new_at 100 [routeStepA]) := by
  have hstop : stop_new_at 100 [routeStepA] = 90 := by
    simp [stop_new_at, total_route_time_min, routeStepA]
    norm_num
  exact new_source_respects_cutoff 100 [routeStepA] [50, 60] 50 60 []
    (by rw [hstop]; norm_num) (by rw [hstop]; norm_num)

theorem run_publishes_locals (evs : List ℕ) (s : PubState) (i : ℕ) :
    (evs.foldl publish_step s).locals i = s.locals i + evs.count i := by
  induction evs generalizing s with
  | nil => simp
  | cons e rest ih =>
      simp only [List.foldl_cons, ih, List.count_cons]
      simp only [publish_step]
      by_cases h : i = e <;> simp [h] <;> omega

/-- C1, counterexample.  A station configured with two parallel machine
instances: instance 0 publishes one token, then instance 1 publishes one
token.  Two tokens were published under the station identity, but the
recorded `station_output` entry is 1 — the second write overwrote the
first with instance 1's own local count, so the entry is not written by
one process and does not hold the cross-instance cumulative count. -/
theorem station_output_overwritten :
    (run_publishes [0, 1]).station_output = some 1 ∧
    [0, 1].length = 2 ∧
    (run_publishes [0, 1]).station_output ≠ some [0, 1].length := by
  refine ⟨rfl, rfl, ?_⟩
  intro h
  simp only [run_publishes, List.foldl_cons, List.foldl_nil, publish_step] at h
  simp at h

/-- C1, amended.  After every Publishing step, the recorded
`station_output` entry equals the publishing instance's own cumulative
publish count, i.e. the number of tokens published so far by whichever
machine instance wrote last — not the cumulative count across instances.
For a station with a single configured machine instance (the spawning loop
creates exactly one process, so every publish is by instance 0) the two
notions agree: the entry then equals the number of tokens published under
the station identity since run start, incremented by one at each publish. -/
theorem station_output_eq_last_writer_count (xs : List ℕ) (i j : ℕ) :
    (run_publishes (xs ++ [i])).station_output = some ((xs ++ [i]).count i) ∧
    (run_publishes (xs ++ [i])).locals j = (xs ++ [i]).count j ∧
    ((∀ e ∈ xs ++ [i], e = 0) →
      (run_publishes (xs ++ [i])).station_output = some (xs ++ [i]).length) := by
  have hlast : (run_publishes (xs ++ [i])).station_output
      = some ((xs ++ [i]).count i) := by
    unfold run_publishes
    rw [List.foldl_append]
    simp only [List.foldl_cons, List.foldl_nil, publish_step]
    have hl := run_publishes_locals xs ⟨fun _ => 0, none⟩ i
    simp only [hl]
    simp [List.count_append]
  refine ⟨hlast, ?_, ?_⟩
  · have := run_publishes_locals (xs ++ [i]) ⟨fun _ => 0, none⟩ j
    simpa [run_publishes] using this
  · intro hall
    have hi : i = 0 := hall i (by simp)
    rw [hlast]
    congr 1
    rw [List.count_eq_length]
    intro b hb
    rw [hall b hb, hi]

theorem find_nonempty_some_spec {α : Type} (bufs : List (List α)) (i : ℕ)
    (h : find_nonempty bufs = some i) :
    (∃ b, bufs[i]? = some b ∧ b ≠ []) ∧ ∀ j, j < i → bufs[j]? = some [] := by
  induction bufs generalizing i with
  | nil => simp [find_nonempty] at h
  | cons b rest ih =>
      simp only [find_nonempty] at h
      by_cases hb : b.length > 0
      · rw [if_pos hb] at h
        obtain rfl : i = 0 := by simpa using h.symm
        refine ⟨⟨b, by simp, ?_⟩, fun j hj => absurd hj (by omega)⟩
        intro hnil
        rw [hnil] at hb
        simp at hb
      · rw [if_neg hb] at h
        have hbnil : b = [] := by
          rcases b with _ | _ <;> simp_all
        obtain ⟨i', hi', rfl⟩ : ∃ i', find_nonempty rest = some i' ∧ i = i' + 1 := by
          rcases hfr : find_nonempty rest with _ | i'
          · rw [hfr] at h; simp at h
          · rw [hfr] at h
            simp at h
            exact ⟨i', rfl, by omega⟩
        obtain ⟨⟨b', hb', hb'ne⟩, hall⟩ := ih i' hi'
        refine ⟨⟨b', by simpa using hb', hb'ne⟩, ?_⟩
        intro j hj
        cases j with
        | zero => simp [hbnil]
        | succ j' => simpa using hall j' (by omega)

theorem find_nonempty_none_iff {α : Type} (bufs : List (List α)) :
    find_nonempty bufs = none ↔ ∀ b ∈ bufs, b = [] := by
  induction bufs with
  | nil => simp [find_nonempty]
  | cons b rest ih =>
      simp only [find_nonempty]
      by_cases hb : b.length > 0
      · rw [if_pos hb]
        constructor
        · intro h
          exact absurd h (by simp)
        · intro hall
          exfalso
          have := hall b (by simp)
          rw [this] at hb
          simp at hb
      · rw [if_neg hb]
        have hbnil : b = [] := by
          rcases b with _ | _ <;> simp_all
        simp [hbnil, Option.map_eq_none', ih]

/-- C6.  At every job start of the priority station, the token taken is the
head of the first buffer in the configured priority order whose current
size is non-zero (every higher-priority buffer being empty); when all
buffers are empty the station sleeps the fixed polling interval and rescans
without taking anything or touching a counter.  For every token processed,
exactly one mix counter increments: `pressen1_from_reman` when the token
came from one of the two highest-priority source buffers (index 0 or 1),
`pressen1_from_new` otherwise. -/
theorem pressen1_priority_take {α : Type} (poll : ℚ) (st : PrioState α) (i : ℕ) :
    (find_nonempty st.bufs = some i →
      (∃ b, st.bufs[i]? = some b ∧ b ≠ []) ∧
      (∀ j, j < i → st.bufs[j]? = some []) ∧
      (prio_idle_step poll st).bufs = removeHead st.bufs i ∧
      (prio_idle_step poll st).pressen1_from_reman +
          (prio_idle_step poll st).pressen1_from_new
        = st.pressen1_from_reman + st.pressen1_from_new + 1 ∧
      (i < 2 →
        (prio_idle_step poll st).pressen1_from_reman = st.pressen1_from_reman + 1 ∧
        (prio_idle_step poll st).pressen1_from_new = st.pressen1_from_new) ∧
      (2 ≤ i →
        (prio_idle_step poll st).pressen1_from_new = st.pressen1_from_new + 1 ∧
        (prio_idle_step poll st).pressen1_from_reman = st.pressen1_from_reman)) ∧
    (find_nonempty st.bufs = none →
      (∀ b ∈ st.bufs, b = []) ∧
      prio_idle_step poll st = { st with now := st.now + poll }) := by
  constructor
  · intro hsome
    obtain ⟨hex, hall⟩ := find_nonempty_some_spec st.bufs i hsome
    refine ⟨hex, hall, ?_, ?_, ?_, ?_⟩ <;>
      simp only [prio_idle_step, hsome] <;>
      by_cases hi : i < 2 <;>
      simp [hi] <;> omega
  · intro hnone
    refine ⟨(find_nonempty_none_iff st.bufs).mp hnone, ?_⟩
    simp [prio_idle_step, hnone]

theorem chained_busy_le_endTime (jobs : List Job) :
    ∀ t, Chained t jobs → t + busyOf jobs ≤ endTime t jobs := by
  induction jobs with
  | nil => intro t _; simp [busyOf, endTime]
  | cons j rest ih =>
      intro t hc
      obtain ⟨h1, h2, h3⟩ := hc
      have := ih (j.start + j.dur) h3
      simp only [busyOf, endTime, List.map_cons, List.sum_cons] at this ⊢
      have hb : busyOf rest = (rest.map (fun j => j.dur)).sum := rfl
      linarith

theorem chained_busy_nonneg (jobs : List Job) :
    ∀ t, Chained t jobs → 0 ≤ busyOf jobs := by
  induction jobs with
  | nil => intro t _; simp [busyOf]
  | cons j rest ih =>
      intro t hc
      obtain ⟨_, h2, h3⟩ := hc
      have := ih (j.start + j.dur) h3
      simp only [busyOf, List.map_cons, List.sum_cons] at this ⊢
      have hb : busyOf rest = (rest.map (fun j => j.dur)).sum := rfl
      linarith

theorem round2_bounds (x : ℚ) (h0 : 0 ≤ x) (h1 : x ≤ 100) :
    0 ≤ round2 x ∧ round2 x ≤ 100 := by
  have hlo : (0 : ℤ) ≤ round (100 * x) := by
    rw [round_eq, Int.le_floor]
    push_cast
    linarith
  have hhi : round (100 * x) ≤ 10000 := by
    rw [round_eq]
    have h2 : ⌊(100 : ℚ) * x + 1 / 2⌋ ≤ ⌊(10000 : ℚ) + 1 / 2⌋ :=
      Int.floor_mono (by linarith)
    have h3 : ⌊(10000 : ℚ) + 1 / 2⌋ = 10000 := by
      apply Int.floor_eq_iff.mpr
      constructor <;> norm_num
    rw [h3] at h2
    exact h2
  constructor
  · rw [round2]
    apply div_nonneg _ (by norm_num : (0 : ℚ) ≤ 100)
    exact_mod_cast hlo
  · rw [round2, div_le_iff₀ (by norm_num : (0 : ℚ) < 100)]
    calc ((round (100 * x) : ℤ) : ℚ) ≤ (10000 : ℚ) := by exact_mod_cast hhi
      _ = 100 * 100 := by norm_num

/-- C2.  Every "Utilization %" value of the `kpi_stations` table equals
`round(100 * busy / (horizon + warmdown), 2)` for that station's recorded
busy time, and every such reported value lies in [0, 100] — because a
station instance's busy counter is the summed duration of completed,
non-overlapping jobs that all fit before the end of the run. -/
theorem kpi_utilization_rows_bounds (horizon warmdown : ℚ)
    (busyMap : List (String × ℚ)) (sched : String → List Job)
    (k : ℕ) (r : String × ℚ)
    (hden : 0 < horizon + warmdown)
    (hbusy : ∀ p ∈ busyMap, p.2 = busyOf (sched p.1) ∧
        Chained 0 (sched p.1) ∧ endTime 0 (sched p.1) ≤ horizon + warmdown)
    (hr : (utilization_rows (horizon + warmdown) busyMap)[k]? = some r) :
    (∃ p ∈ busyMap, r = (p.1, round2 (100 * p.2 / (horizon + warmdown)))) ∧
    0 ≤ r.2 ∧ r.2 ≤ 100 := by
  rw [utilization_rows, List.getElem?_map] at hr
  rcases hp : busyMap[k]? with _ | p
  · rw [hp] at hr; simp at hr
  · rw [hp] at hr
    rw [Option.map_some'] at hr
    have hpr : r = (p.1, round2 (100 * p.2 / (horizon + warmdown))) :=
      (Option.some.inj hr).symm
    have hmem : p ∈ busyMap := List.getElem?_mem hp
    obtain ⟨hbv, hch, hend⟩ := hbusy p hmem
    have hb0 : 0 ≤ p.2 := hbv ▸ chained_busy_nonneg (sched p.1) 0 hch
    have hble : p.2 ≤ horizon + warmdown := by
      have := chained_busy_le_endTime (sched p.1) 0 hch
      rw [hbv]
      linarith
    have hx0 : 0 ≤ 100 * p.2 / (horizon + warmdown) :=
      div_nonneg (by linarith) (le_of_lt hden)
    have hx1 : 100 * p.2 / (horizon + warmdown) ≤ 100 := by
      rw [div_le_iff₀ hden]
      linarith
    have hb := round2_bounds (100 * p.2 / (horizon + warmdown)) hx0 hx1
    exact ⟨⟨p, hmem, hpr⟩, by rw [hpr]; exact hb.1, by rw [hpr]; exact hb.2⟩

def witnessBusyMap : List (String × ℚ) :=
  [("montage", 5)]

def witnessSched : String → List Job :=
  fun _ => [⟨0, 5⟩]

theorem kpi_utilization_rows_bounds_witness :
    (∃ p ∈ witnessBusyMap,
        (("montage", (50 : ℚ)) : String × ℚ) = (p.1, round2 (100 * p.2 / (10 + 0)))) ∧
    0 ≤ ((("montage", (50 : ℚ)) : String × ℚ)).2 ∧
    ((("montage", (50 : ℚ)) : String × ℚ)).2 ≤ 100 := by
  apply kpi_utilization_rows_bounds 10 0 witnessBusyMap witnessSched 0 ("montage", 50)
  · norm_num
  · intro p hp
    simp only [witnessBusyMap, List.mem_singleton] at hp
    subst hp
    refine ⟨?_, ?_, ?_⟩ <;> simp [witnessSched, busyOf, Chained, endTime] <;> norm_num
  · have harg : (100 : ℚ) * 5 / (10 + 0) = 50 := by norm_num
    have h50 : round2 (50 : ℚ) = 50 := by
      rw [round2]
      rw [show (100 : ℚ) * 50 = 5000 from by norm_num, round_eq]
      rw [show ⌊(5000 : ℚ) + 1 / 2⌋ = 5000 from by
        apply Int.floor_eq_iff.mpr
        constructor <;> norm_num]
      norm_num
    simp [utilization_rows, witnessBusyMap]
    rw [show (100 : ℚ) * 5 / 10 = 50 from by norm_num, h50]

theorem sum_holding_set (l : List WStation) (i : ℕ) (st a : WStation)
    (h : l[i]? = some st) :
    ((l.set i a).map (fun x => x.holding)).sum + st.holding
      = (l.map (fun x => x.holding)).sum + a.holding := by
  induction l generalizing i with
  | nil => simp at h
  | cons b rest ih =>
      cases i with
      | zero =>
          simp only [List.getElem?_cons_zero] at h
          obtain rfl : b = st := Option.some.inj h
          simp [List.set]
          omega
      | succ i' =>
          simp only [List.getElem?_cons_succ] at h
          simp only [List.set, List.map_cons, List.sum_cons]
          have := ih i' h
          omega

theorem initSys_heldSum (total : ℕ) (reqs : List ℕ) :
    heldSum (initSys total reqs) = 0 := by
  simp only [heldSum, initSys, List.map_map]
  apply List.sum_eq_zero
  intro x hx
  simp only [List.mem_map, Function.comp] at hx
  obtain ⟨r, _, rfl⟩ := hx
  rfl

/-- C7, amended.  In every reachable state of a run: the pool level plus
the total of reserved units equals `workers_total` (so
`0 ≤ available ≤ total`, and every release restores exactly the count its
`start` reserved); and whenever a worker pool exists (`workers_total > 0`),
no station instance is in its Processing state holding fewer units than its
configured `workers_required`.  When `workers_total = 0` no pool object is
created and stations skip the reservation entirely, processing while
holding 0 workers regardless of their requirement. -/
theorem worker_pool_invariant (total : ℕ) (reqs : List ℕ) (s : WSys)
    (h : Relation.ReflTransGen WStep (initSys total reqs) s) :
    s.avail + heldSum s = s.workers_total ∧
    s.avail ≤ s.workers_total ∧
    (0 < s.workers_total →
      ∀ st ∈ s.stations, st.busy = true → st.holding = st.req) := by
  induction h with
  | refl =>
      refine ⟨?_, ?_, ?_⟩
      · rw [initSys_heldSum]
        simp [initSys]
      · simp [initSys]
      · intro _ st hst hbusy
        simp only [initSys, List.mem_map] at hst
        obtain ⟨r, _, rfl⟩ := hst
        simp at hbusy
  | tail hsteps hstep ih =>
      obtain ⟨ih1, ih2, ih3⟩ := ih
      cases hstep with
      | start i st hget hidle hhold hav =>
          rename_i s
          have hsum := sum_holding_set s.stations i st
            ⟨st.req, reserveNeed s.workers_total st.req, true⟩ hget
          refine ⟨?_, ?_, ?_⟩
          · simp only [heldSum] at ih1 hsum ⊢
            omega
          · simp only [heldSum] at ih1 hsum ⊢
            omega
          · intro hpos x hx hxbusy
            have hpos' : 0 < s.workers_total := by simpa using hpos
            dsimp only at hx
            rcases List.mem_or_eq_of_mem_set hx with hmem | rfl
            · exact ih3 hpos' x hmem hxbusy
            · dsimp only
              simp only [reserveNeed]
              rcases Nat.eq_zero_or_pos st.req with hr | hr
              · simp [hr]
              · simp [hpos', hr]
      | finish i st hget hbusy =>
          rename_i s
          have hsum := sum_holding_set s.stations i st
            ⟨st.req, st.holding, false⟩ hget
          refine ⟨?_, ?_, ?_⟩
          · simp only [heldSum] at ih1 hsum ⊢
            omega
          · exact ih2
          · intro hpos x hx hxbusy
            have hpos' : 0 < s.workers_total := by simpa using hpos
            dsimp only at hx
            rcases List.mem_or_eq_of_mem_set hx with hmem | rfl
            · exact ih3 hpos' x hmem hxbusy
            · simp at hxbusy
      | release i st hget hidle =>
          rename_i s
          have hsum := sum_holding_set s.stations i st
            ⟨st.req, 0, false⟩ hget
          refine ⟨?_, ?_, ?_⟩
          · simp only [heldSum] at ih1 hsum ⊢
            omega
          · simp only [heldSum] at ih1 hsum ⊢
            omega
          · intro hpos x hx hxbusy
            have hpos' : 0 < s.workers_total := by simpa using hpos
            dsimp only at hx
            rcases List.mem_or_eq_of_mem_set hx with hmem | rfl
            · exact ih3 hpos' x hmem hxbusy
            · simp at hxbusy

theorem worker_pool_invariant_witness :
    (initSys 2 [1]).avail + heldSum (initSys 2 [1]) = (initSys 2 [1]).workers_total ∧
    (initSys 2 [1]).avail ≤ (initSys 2 [1]).workers_total ∧
    (0 < (initSys 2 [1]).workers_total →
      ∀ st ∈ (initSys 2 [1]).stations, st.busy = true → st.holding = st.req) :=
  worker_pool_invariant 2 [1] (initSys 2 [1]) Relation.ReflTransGen.refl

/-- A run configured with `workers_total = 0` (so `workers_pool is None`)
and one station instance with `workers_required = 1`. -/
def cexInit : WSys :=
  initSys 0 [1]

/-- The state after that station starts its first job: it is in Processing
holding 0 of its 1 required worker, because the reservation was skipped. -/
def cexAfter : WSys :=
  ⟨0, 0, [⟨1, 0, true⟩]⟩

/-- C7, counterexample.  With `workers_total = 0` the pool is `None` and
`run_serial_station` skips the reservation (stations.py 84-85), so a
station with `workers_required = 1` reaches its Processing state holding 0
< 1 worker units: the claim's "no station instance enters its Processing
state while holding fewer worker units than its configured
workers_required" fails on this reachable run state. -/
theorem worker_pool_skipped_when_no_pool :
    Relation.ReflTransGen WStep cexInit cexAfter ∧
    cexAfter.stations[0]? = some ⟨1, 0, true⟩ ∧
    (⟨1, 0, true⟩ : WStation).busy = true ∧
    (⟨1, 0, true⟩ : WStation).holding < (⟨1, 0, true⟩ : WStation).req := by
  refine ⟨?_, rfl, rfl, by norm_num⟩
  apply Relation.ReflTransGen.single
  have h := WStep.start cexInit 0 ⟨1, 0, false⟩ rfl rfl rfl
    (by simp [reserveNeed, cexInit, initSys])
  have heq : cexAfter
      = ⟨cexInit.workers_total,
         cexInit.avail - reserveNeed cexInit.workers_total 1,
         cexInit.stations.set 0 ⟨1, reserveNeed cexInit.workers_total 1, true⟩⟩ := by
    simp [cexAfter, cexInit, initSys, reserveNeed]
  rw [heq]
  exact h

end LearningFactory
